import Mathlib

/-!
Shallow embedding of the dagql selection-resolution engine
(`src/dagql/server.go`) and proofs about it.

Go maps (`map[string]X`) are embedded as association lists
(`List (String × X)`); where the code relies on the map-key invariant
(distinct keys) the theorems carry an explicit `Nodup` hypothesis.
Go errors are an inductive `Err` mirroring the `fmt.Errorf` shapes of the
source; error wrapping (`%w`) is a constructor carrying the inner error.
-/

namespace Dagql

/-- Model of gqlparser's `ast.Type`: a named type, or a list type with an
element type. The `NonNull` flag is omitted: no embedded code path reads it. -/
inductive GType where
  | mk (namedType : String) (elem : Option GType)

/-- `ast.Type.Name()`: the named type when set, otherwise the element's name. -/
def GType.name : GType → String
  | .mk n none => n
  | .mk n (some t) => if n ≠ "" then n else t.name

/-- The `NamedType` field of an `ast.Type`. -/
def GType.namedType : GType → String
  | .mk n _ => n

/-- The `Elem` field of an `ast.Type`. -/
def GType.elem : GType → Option GType
  | .mk _ e => e

mutual
/-- Model of `idproto.Literal`: the wire literal values understood by
`Server.fromLiteral` (server.go:392). `lfloat` carries the raw bits as an
integer, since the engine never computes with floats. -/
inductive Lit where
  | lid (i : ID)
  | lint (n : Int)
  | lfloat (bits : Int)
  | lstr (s : String)
  | lbool (b : Bool)
  | llist (xs : List Lit)
  | lobject
  | lenum (s : String)

/-- Model of `idproto.ID`: the declared result type plus the selector chain
(the `Constructor` field). -/
inductive ID where
  | mk (type : GType) (constructor : List IdSel)

/-- Model of `idproto.Selector`: one field application within an ID chain. -/
inductive IdSel where
  | mk (field : String) (args : List IdArg) (nth : Int) (tainted : Bool) (meta : Bool)

/-- Model of `idproto.Argument`: a named literal argument. -/
inductive IdArg where
  | mk (name : String) (value : Lit)
end

/-- The declared type of an ID. -/
def ID.type : ID → GType
  | .mk t _ => t

/-- The selector chain of an ID. -/
def ID.constructor : ID → List IdSel
  | .mk _ c => c

/-- The field name of an ID selector. -/
def IdSel.field : IdSel → String
  | .mk f _ _ _ _ => f

/-- The argument list of an ID selector. -/
def IdSel.args : IdSel → List IdArg
  | .mk _ a _ _ _ => a

/-- The trailing array index of an ID selector (0 when absent). -/
def IdSel.nth : IdSel → Int
  | .mk _ _ n _ _ => n

/-- The name of an ID argument. -/
def IdArg.name : IdArg → String
  | .mk n _ => n

/-- The literal value of an ID argument. -/
def IdArg.value : IdArg → Lit
  | .mk _ v => v

/-- Modelled from the spec: `idproto.ID.Clone` (not under `src/`) performs a
deep copy so that extensions never alias the parent's mutable state; on
immutable Lean values the deep copy is the identity. -/
def ID.clone (id : ID) : ID := id

/-- Model of the dagql `Typed` value universe: every value flowing through
resolution. Constructors mark which capability interfaces the Go value
implements: `varr` is `Array` (Enumerable), `vnull` is `Optional` (Nullable),
`vobj` is an `Instance` (Object, carrying its `ID`), `vid` is the lazy
ID-backed handle produced by `class.NewID`. -/
inductive Val where
  | vint (n : Int)
  | vfloat (bits : Int)
  | vstr (s : String)
  | vbool (b : Bool)
  | venum (typeName : String) (value : String)
  | varr (elemName : String) (elems : List Val)
  | vnull (typeName : String) (inner : Option Val)
  | vobj (type : GType) (id : ID) (self : Val)
  | vid (typeName : String) (id : ID)

/-- `Typed.Type()` for each value variant. Scalars report their scalar names;
an `Array`'s type is a list of its element type (gqlparser `ast.Type` with
only `Elem` set). -/
def Val.typeOf : Val → GType
  | .vint _ => .mk "Int" none
  | .vfloat _ => .mk "Float" none
  | .vstr _ => .mk "String" none
  | .vbool _ => .mk "Boolean" none
  | .venum tn _ => .mk tn none
  | .varr en _ => .mk "" (some (.mk en none))
  | .vnull tn _ => .mk tn none
  | .vobj t _ _ => t
  | .vid tn _ => .mk tn none

/-- `val.Type().Name()`. -/
def Val.typeName (v : Val) : String := v.typeOf.name

/-- `Object.ID()`: defined on object instances; other variants never reach the
call sites that ask for an ID and report the empty root chain. -/
def Val.idOf : Val → ID
  | .vobj _ i _ => i
  | v => .mk v.typeOf []

/-- Whether the Go value implements the `Object` interface
(the `val.(Object)` type assertion in `toSelectable`, server.go:437). -/
def Val.isObj : Val → Bool
  | .vobj _ _ _ => true
  | _ => false

/-- Modelled from the spec: `dagql.ToLiteral` (types.go, not under `src/`)
deterministically encodes a typed value as an `idproto` literal; objects and
ID handles encode as their ID, an absent optional has no literal form in the
available source and is encoded by the opaque `lobject`. -/
def toLiteral : Val → Lit
  | .vint n => .lint n
  | .vfloat b => .lfloat b
  | .vstr s => .lstr s
  | .vbool b => .lbool b
  | .venum _ v => .lenum v
  | .varr _ xs => .llist (xs.attach.map (fun x => toLiteral x.1))
  | .vnull _ (some v) => toLiteral v
  | .vnull _ none => .lobject
  | .vobj _ i _ => .lid i
  | .vid _ i => .lid i
decreasing_by
  all_goals simp_wf
  · have := List.sizeOf_lt_of_mem x.2
    omega
  · omega

/-- Model of `ast.FieldDefinition`: result type, argument schema
(`Arguments.ForName` is association-list lookup) and the set of directive
names present (`Directives.ForName(x) != nil` becomes list membership). -/
structure FieldDef where
  type : GType
  arguments : List (String × GType)
  directives : List String

/-- Model of `dagql.Selector` (server.go:466): how to retrieve a value from an
instance. `args` embeds the Go `map[string]Typed`. -/
structure Selector where
  field : String
  args : List (String × Val)
  nth : Int

/-- The `sort.Slice(idArgs, ...)` call in `appendToID` (server.go:481):
sort ID arguments by name. -/
def sortIdArgs (l : List IdArg) : List IdArg :=
  List.insertionSort (fun a b => a.name ≤ b.name) l

/-- The `idproto.Selector` appended by `Selector.appendToID` (server.go:484):
field name, name-sorted arguments, no index, tainted/meta from directives. -/
def appendedSelector (sel : Selector) (field : FieldDef) : IdSel :=
  .mk sel.field
    (sortIdArgs (sel.args.map (fun a => IdArg.mk a.1 (toLiteral a.2))))
    0
    (field.directives.contains "tainted")
    (field.directives.contains "meta")

/-- Model of `Selector.appendToID` (server.go:472): clone the parent ID,
append one selector with name-sorted arguments, and set the declared type to
the field's result type. -/
def Selector.appendToID (sel : Selector) (id : ID) (field : FieldDef) : ID :=
  .mk field.type ((id.clone).constructor ++ [appendedSelector sel field])

/-- Model of the engine's error values: one constructor per `fmt.Errorf`
shape in server.go; `%w`-wrapping constructors carry the inner error.
`custom` stands for errors produced by domain `Select` implementations or
scalar decoders. -/
inductive Err where
  | unknownType (name : String)
  | unknownField (name : String)
  | unknownArgument (name : String)
  | unknownScalar (name : String)
  | unknownClass (name : String)
  | invalidID
  | todoObjects
  | instantiate (inner : Err)
  | instantiateNth (nth : Nat) (inner : Err)
  | cannotSubSelect
  | cannotSubSelectNth (nth : Int)
  | nthOutOfRange (nth : Int)
  | selName (name : String) (inner : Err)
  | unexpectedResultType
  | custom (msg : String)
deriving DecidableEq

/-- Model of the `any` results assembled by the resolver: `null` is Go `nil`,
`val` a `Typed` value, `map` the `map[string]any` built by `Resolve`, and
`list` the plain `[]any` slice assembled by the array fan-out — which,
unlike `val (.varr ..)`, does not implement `Enumerable`. -/
inductive Res where
  | null
  | val (v : Val)
  | map (entries : List (String × Res))
  | list (items : List Res)

/-- Model of `dagql.Selection` (server.go:450). -/
inductive Selection where
  | mk (aliasName : String) (selector : Selector) (subselections : List Selection)

/-- The alias of a selection (empty when absent). -/
def Selection.aliasName : Selection → String
  | .mk a _ _ => a

/-- The selector of a selection. -/
def Selection.selector : Selection → Selector
  | .mk _ s _ => s

/-- The sub-selections of a selection. -/
def Selection.subselections : Selection → List Selection
  | .mk _ _ subs => subs

/-- Model of `Selection.Name` (server.go:458): the alias when non-empty,
otherwise the field name. -/
def Selection.name (sel : Selection) : String :=
  if sel.aliasName ≠ "" then sel.aliasName else sel.selector.field

/-- Model of the raw (`any`) values handed to scalar decoders: the result of
`arg.Value.Value(vars)` on the wire path, or the raw enum symbol on the
ID-replay path. -/
inductive RawVal where
  | rint (n : Int)
  | rfloat (bits : Int)
  | rstr (s : String)
  | rbool (b : Bool)
  | rnull
  | rlist (xs : List RawVal)

/-- Model of `dagql.ScalarType`: a decoder from a raw wire value to a typed
value (`scalar.New`). -/
structure Scalar where
  new : RawVal → Except Err Val

/-- Model of a registered `dagql.ObjectType` (a class): its field definitions,
and the polymorphic `Select` dispatch supplied by domain code — the single
dynamic-dispatch point of the engine (`self.Select`, server.go:313). `select`
receives the whole object instance and the selector. -/
structure Class where
  fieldDefs : List (String × FieldDef)
  select : Val → Selector → Except Err Val

/-- Model of `dagql.Server` (server.go:19): root object, class registry and
scalar registry. The memoization cache is constructed but unused by
resolution (server.go:308 keeps the cached path commented out), so it is
modelled separately. -/
structure Server where
  root : Val
  classes : List (String × Class)
  scalars : List (String × Scalar)

/-- Model of `Server.toSelectable` (server.go:436): a value that is already an
Object is returned as-is; otherwise the value's class must be registered and
its constructor wraps the value into an instance stamped with the given ID
(`class.New` is not under `src/` and is modelled from the spec §4.1: it binds
a raw value plus an ID into an Object). -/
def Server.toSelectable (s : Server) (chainedID : ID) (val : Val) : Except Err Val :=
  if val.isObj then .ok val
  else
    match List.lookup val.typeName s.classes with
    | none => .error (.unknownType val.typeName)
    | some _ => .ok (.vobj val.typeOf chainedID val)

/-- Set the trailing index of the last selector of a chain. -/
def setLastNth : List IdSel → Int → List IdSel
  | [], _ => []
  | [.mk f a _ t m], i => [.mk f a i t m]
  | c :: cs, i => c :: setLastNth cs i

/-- Modelled from the spec (§4.3 IndexInto): `idproto.ID.Nth` (not under
`src/`) specializes an ID to the nth element of an array-typed result: the
final selector records the 1-based index and the declared type becomes the
element type. -/
def ID.nth (id : ID) (i : Int) : ID :=
  .mk (match id.type.elem with | some e => e | none => id.type)
    (setLastNth id.constructor i)

/-- One `results.Store(key, val)` on the concurrent result collector
(server.go:147) under Go map semantics: replace an existing key, otherwise
append. -/
def mapStore (m : List (String × Res)) (k : String) (v : Res) : List (String × Res) :=
  match m with
  | [] => [(k, v)]
  | (k', v') :: rest => if k' = k then (k, v) :: rest else (k', v') :: mapStore rest k v

/-- The result map assembled from the per-selection stores (server.go:155). -/
def buildMap (stores : List (String × Res)) : List (String × Res) :=
  stores.foldl (fun acc kv => mapStore acc kv.1 kv.2) []

/-- Modelled from the spec: `Array.Nth` (types.go, not under `src/`) is
1-indexed access into the fixed-length sequence; an index outside
`1..Len` errors. -/
def arrNth (xs : List Val) (i : Int) : Except Err Val :=
  if h : 0 < i ∧ i ≤ xs.length then
    .ok (xs.get ⟨(i - 1).toNat, by omega⟩)
  else .error (.nthOutOfRange i)

/-- The trailing-index step of `resolvePath` (server.go:369): when the
selector carries a non-zero `Nth`, the computed result must itself be
`Enumerable` — among result shapes only a `Typed` array value is; the plain
`[]any` slice assembled by the fan-out (`Res.list`), a result map and `nil`
all fail the `res.(Enumerable)` assertion. -/
def applyNth (nth : Int) (res : Res) : Except Err Res :=
  if nth = 0 then .ok res
  else
    match res with
    | .val (.varr _ xs) => (arrNth xs nth).map .val
    | _ => .error (.cannotSubSelectNth nth)

mutual
/-- Model of `Server.resolvePath` (server.go:292): look up the class and field
definition, extend the ID, dispatch `self.Select`, unwrap nullability, branch
on the result shape (scalar / object sub-selection / array fan-out), then
apply the trailing index. -/
def Server.resolvePath (s : Server) (self : Val) (sel : Selection) : Except Err Res :=
  match sel with
  | .mk _ slr subs =>
    match List.lookup self.typeName s.classes with
    | none => .error (.unknownType self.typeName)
    | some cl =>
      match List.lookup slr.field cl.fieldDefs with
      | none => .error (.unknownField slr.field)
      | some fd =>
        let chainedID := slr.appendToID self.idOf fd
        match cl.select self slr with
        | .error e => .error e
        | .ok v0 =>
          match (match v0 with | .vnull _ inner => inner | v => some v) with
          | none => applyNth slr.nth .null
          | some val =>
            match subs with
            | [] => applyNth slr.nth (.val val)
            | sub :: subsRest =>
              if fd.type.namedType ≠ "" then
                match s.toSelectable chainedID val with
                | .error e => .error (.instantiate e)
                | .ok node =>
                  match s.resolveSels node (sub :: subsRest) with
                  | .error e => .error e
                  | .ok stores => applyNth slr.nth (.map (buildMap stores))
              else
                match fd.type.elem with
                | some _ =>
                  match val with
                  | .varr _ xs =>
                    match s.resolveElems chainedID (sub :: subsRest) xs 0 with
                    | .error e => .error e
                    | .ok items => applyNth slr.nth (.list items)
                  | _ => .error .cannotSubSelect
                | none => .error .cannotSubSelect
termination_by (sizeOf sel, 0)

/-- Model of the sibling fan-out loop of `Server.Resolve` (server.go:140):
each selection resolves against `self`; a failure is wrapped with the
selection's name and fails the group; successes are stored keyed by the
selection's name. The concurrent pool is embedded sequentially in sibling
order. -/
def Server.resolveSels (s : Server) (self : Val) (sels : List Selection) :
    Except Err (List (String × Res)) :=
  match sels with
  | [] => .ok []
  | sel :: rest =>
    match s.resolvePath self sel with
    | .error e => .error (.selName sel.name e)
    | .ok r =>
      match s.resolveSels self rest with
      | .error e => .error e
      | .ok m => .ok ((sel.name, r) :: m)
termination_by (sizeOf sels, 0)

/-- Model of the per-element loop of the array branch (server.go:348): element
`idx+1` (1-based) is fetched, materialized with its own per-index ID, the
sub-selections are resolved against it, and the result maps are collected in
strict index order into a plain `[]any` slice. -/
def Server.resolveElems (s : Server) (chainedID : ID) (subs : List Selection)
    (elems : List Val) (idx : Nat) : Except Err (List Res) :=
  match elems with
  | [] => .ok []
  | v :: rest =>
    match s.toSelectable (chainedID.nth (Int.ofNat (idx + 1))) v with
    | .error e => .error (.instantiateNth (idx + 1) e)
    | .ok node =>
      match s.resolveSels node subs with
      | .error e => .error e
      | .ok stores =>
        match s.resolveElems chainedID subs rest (idx + 1) with
        | .error e => .error e
        | .ok items => .ok (.map (buildMap stores) :: items)
termination_by (sizeOf subs, 1 + elems.length)
end

/-- Model of `Server.Resolve` (server.go:136): resolve the sibling selections
against the object and, when no sibling failed, assemble the result map keyed
by selection name. -/
def Server.Resolve (s : Server) (self : Val) (sels : List Selection) :
    Except Err (List (String × Res)) :=
  (s.resolveSels self sels).map buildMap

mutual
/-- Model of `Server.fromLiteral` (server.go:392): decode one wire literal
into a typed value. `argDef` is the declared argument type
(`argDef.Type`); an ID literal must carry a named type with a registered
class (`class.NewID`, not under `src/`, is modelled from the spec §4.2 as a
lazy ID-backed handle); nested object literals are unsupported. -/
def Server.fromLiteral (s : Server) (lit : Lit) (argDef : GType) : Except Err Val :=
  match lit with
  | .lid i =>
    if i.type.namedType = "" then .error .invalidID
    else
      match List.lookup i.type.namedType s.classes with
      | none => .error (.unknownClass i.type.namedType)
      | some _ => .ok (.vid i.type.namedType i)
  | .lint n => .ok (.vint n)
  | .lfloat b => .ok (.vfloat b)
  | .lstr str => .ok (.vstr str)
  | .lbool b => .ok (.vbool b)
  | .llist xs =>
    match s.fromLiterals xs argDef with
    | .error e => .error e
    | .ok vs => .ok (.varr "" vs)
  | .lobject => .error .todoObjects
  | .lenum e =>
    match List.lookup argDef.name s.scalars with
    | none => .error (.unknownScalar argDef.name)
    | some sc => sc.new (.rstr e)

/-- Element-wise decoding of a list literal (server.go:413). -/
def Server.fromLiterals (s : Server) (xs : List Lit) (argDef : GType) :
    Except Err (List Val) :=
  match xs with
  | [] => .ok []
  | l :: rest =>
    match s.fromLiteral l argDef with
    | .error e => .error e
    | .ok v =>
      match s.fromLiterals rest argDef with
      | .error e => .error e
      | .ok vs => .ok (v :: vs)
end

/-- The argument-decoding loop of `constructorToSelection` (server.go:180):
each ID argument must appear in the field's declared argument schema, and its
literal is decoded via `fromLiteral`. -/
def Server.decodeIdArgs (s : Server) (fd : FieldDef) :
    List IdArg → Except Err (List (String × Val))
  | [] => .ok []
  | arg :: rest =>
    match List.lookup arg.name fd.arguments with
    | none => .error (.unknownArgument arg.name)
    | some argTy =>
      match s.fromLiteral arg.value argTy with
      | .error e => .error e
      | .ok val =>
        match s.decodeIdArgs fd rest with
        | .error e => .error e
        | .ok args => .ok ((arg.name, val) :: args)

/-- Model of `Server.constructorToSelection` (server.go:163): replay an ID
chain as a synthetic selection tree — one selection per chain element, each
wrapping the next in a singleton sub-selection list, with no alias. -/
def Server.constructorToSelection (s : Server) (selfType : GType) (first : IdSel)
    (rest : List IdSel) : Except Err Selection :=
  match List.lookup selfType.name s.classes with
  | none => .error (.unknownType selfType.name)
  | some cl =>
    match List.lookup first.field cl.fieldDefs with
    | none => .error (.unknownField first.field)
    | some fd =>
      match s.decodeIdArgs fd first.args with
      | .error e => .error e
      | .ok args =>
        match rest with
        | [] => .ok (.mk "" ⟨first.field, args, first.nth⟩ [])
        | r :: rs =>
          match s.constructorToSelection fd.type r rs with
          | .error e => .error e
          | .ok sub => .ok (.mk "" ⟨first.field, args, first.nth⟩ [sub])

/-- The drill-down loop of `Server.Load` (server.go:220): each chain element
indexes the current result map by its field name (a missing key yields Go
`nil`, i.e. `Res.null`); a non-map intermediate is an unexpected result
type. -/
def drillRes : Res → List IdSel → Except Err Res
  | res, [] => .ok res
  | .map m, c :: cs => drillRes ((List.lookup c.field m).getD .null) cs
  | _, _ :: _ => .error .unexpectedResultType

/-- Model of `Server.Load` (server.go:207): an empty chain returns the root;
otherwise the chain is replayed as a nested synthetic selection tree,
resolved once against the root, the result map is drilled down along the
chain, the final value must be `Typed`, and it is materialized via
`toSelectable` with the original ID. -/
def Server.load (s : Server) (id : ID) : Except Err Val :=
  match id.constructor with
  | [] => .ok s.root
  | first :: rest =>
    match s.constructorToSelection s.root.typeOf first rest with
    | .error e => .error e
    | .ok sel =>
      match s.Resolve s.root [sel] with
      | .error e => .error e
      | .ok m =>
        match drillRes (.map m) id.constructor with
        | .error e => .error e
        | .ok final =>
          match final with
          | .val v => s.toSelectable id v
          | _ => .error .unexpectedResultType

/-- Outcome of the wire-query parsing path. A Go runtime panic (nil pointer
dereference) is a distinct outcome from a returned error. -/
inductive POut (α : Type) where
  | ok (a : α)
  | err (e : Err)
  | nilDeref

/-- Model of a validated `*ast.Field` as consumed by `parseASTSelections`
(server.go:241): alias, field name, arguments with their values already
substituted from the variables map (`arg.Value.Value(vars)`), the argument
schema attached by validation (`x.Definition.Arguments`), and the nested
selection set. Fragment spreads (server.go:274) are not modelled: they only
flatten a named fragment's selection set through the same code path and no
claim concerns them. -/
inductive AstSel where
  | mk (aliasName : String) (name : String) (arguments : List (String × RawVal))
      (defArgs : List (String × GType)) (selectionSet : List AstSel)

/-- The argument-decoding loop of `parseASTSelections` (server.go:243). The
source shadows the loop variable: `arg := x.Definition.Arguments.ForName(arg.Name)`
rebinds `arg` to the looked-up `*ast.ArgumentDefinition`, so when the lookup
misses, formatting the intended unknown-argument error evaluates `arg.Name`
on a nil pointer and the function panics instead of returning the error. -/
def Server.parseArgs (s : Server) (defArgs : List (String × GType)) :
    List (String × RawVal) → POut (List (String × Val))
  | [] => .ok []
  | (an, av) :: rest =>
    match List.lookup an defArgs with
    | none => .nilDeref
    | some argTy =>
      match List.lookup argTy.name s.scalars with
      | none => .err (.unknownScalar argTy.name)
      | some sc =>
        match sc.new av with
        | .error e => .err e
        | .ok typed =>
          match s.parseArgs defArgs rest with
          | .ok args => .ok ((an, typed) :: args)
          | other => other

/-- Model of `Server.parseASTSelections` (server.go:235), field case: decode
the arguments, recursively parse the nested selection set, and build a
`Selection` carrying the alias. -/
def Server.parseASTSelections (s : Server) (astSels : List AstSel) :
    POut (List Selection) :=
  match astSels with
  | [] => .ok []
  | .mk al nm args defArgs subsSet :: rest =>
    match s.parseArgs defArgs args with
    | .nilDeref => .nilDeref
    | .err e => .err e
    | .ok typedArgs =>
      match s.parseASTSelections subsSet with
      | .nilDeref => .nilDeref
      | .err e => .err e
      | .ok subsels =>
        match s.parseASTSelections rest with
        | .nilDeref => .nilDeref
        | .err e => .err e
        | .ok sels => .ok (.mk al ⟨nm, typedArgs, 0⟩ subsels :: sels)

/-- Modelled from the spec (§4.6): the `CacheMap` implementation is not under
`src/` (server.go only constructs it, lines 23 and 47). One memoization
entry: an in-flight computation owned by the caller that started it, with the
callers blocked on it, or a completed shared result. -/
inductive CEntry (V E : Type) where
  | inflight (owner : Nat) (waiters : List Nat)
  | done (result : Except E V)

/-- Events of the `GetOrCompute` protocol: a caller invokes `GetOrCompute`
for a digest, the single in-flight computation for a digest finishes with a
value or an error, a caller returns carrying a result. -/
inductive CEvent (K V E : Type) where
  | call (caller : Nat) (key : K)
  | finish (key : K) (result : Except E V)
  | ret (caller : Nat) (key : K) (result : Except E V)

/-- Decidable equality of computation results, for the step function's check
that a caller returns exactly the completed result. -/
instance instDecEqExcept {V E : Type} [DecidableEq V] [DecidableEq E] :
    DecidableEq (Except E V) := fun a b =>
  match a, b with
  | .ok x, .ok y =>
    if h : x = y then .isTrue (by rw [h]) else .isFalse (by intro hc; cases hc; exact h rfl)
  | .error x, .error y =>
    if h : x = y then .isTrue (by rw [h]) else .isFalse (by intro hc; cases hc; exact h rfl)
  | .ok _, .error _ => .isFalse (by intro hc; cases hc)
  | .error _, .ok _ => .isFalse (by intro hc; cases hc)

/-- The cache state: digest → entry. -/
abbrev CState (K V E : Type) : Type := List (K × CEntry V E)

/-- Replace the entry for a key (the key is present when this is used). -/
def setEntry {K V E : Type} [DecidableEq K] (st : CState K V E) (k : K)
    (e : CEntry V E) : CState K V E :=
  match st with
  | [] => [(k, e)]
  | (k', e') :: rest => if k' = k then (k, e) :: rest else (k', e') :: setEntry rest k e

/-- Modelled from the spec (§4.6): one step of the `GetOrCompute` protocol.
A call on an absent digest installs an in-flight entry and starts the
computation (this is the only transition that runs `computeFn`); a call on an
in-flight digest joins the waiters and blocks; a call on a completed digest
returns immediately. A computation can finish only while in-flight. A caller
can return only once the digest is completed, and only with the completed
result (callers block until then and share it). -/
def cstep {K V E : Type} [DecidableEq K] [DecidableEq V] [DecidableEq E]
    (st : CState K V E) : CEvent K V E → Option (CState K V E)
  | .call c k =>
    match List.lookup k st with
    | none => some ((k, .inflight c []) :: st)
    | some (.inflight o ws) => some (setEntry st k (.inflight o (c :: ws)))
    | some (.done _) => some st
  | .finish k r =>
    match List.lookup k st with
    | some (.inflight _ _) => some (setEntry st k (.done r))
    | _ => none
  | .ret _ k r =>
    match List.lookup k st with
    | some (.done r') => if r = r' then some st else none
    | _ => none

/-- Run a trace of events from a state. -/
def crun {K V E : Type} [DecidableEq K] [DecidableEq V] [DecidableEq E]
    (st : CState K V E) : List (CEvent K V E) → Option (CState K V E)
  | [] => some st
  | ev :: evs =>
    match cstep st ev with
    | none => none
    | some st' => crun st' evs

/-- A trace the protocol can actually execute from a state. -/
def validFrom {K V E : Type} [DecidableEq K] [DecidableEq V] [DecidableEq E]
    (st : CState K V E) (t : List (CEvent K V E)) : Prop :=
  (crun st t).isSome

/-- Whether an event, taken in a state, starts the underlying computation for
a key: a call for that key finding no entry. -/
def isStart {K V E : Type} [DecidableEq K] (st : CState K V E)
    (ev : CEvent K V E) (k : K) : Bool :=
  match ev with
  | .call _ k' => k' = k && (List.lookup k st).isNone
  | _ => false

/-- How many times a trace starts the computation for a key. -/
def startsFrom {K V E : Type} [DecidableEq K] [DecidableEq V] [DecidableEq E]
    (st : CState K V E) : List (CEvent K V E) → K → Nat
  | [], _ => 0
  | ev :: evs, k =>
    (if isStart st ev k then 1 else 0) +
      match cstep st ev with
      | some st' => startsFrom st' evs k
      | none => 0

/-- The results with which the computation for a key finishes along a trace. -/
def finishesFrom {K V E : Type} [DecidableEq K] [DecidableEq V] [DecidableEq E]
    (st : CState K V E) : List (CEvent K V E) → K → List (Except E V)
  | [], _ => []
  | ev :: evs, k =>
    match cstep st ev with
    | none => []
    | some st' =>
      match ev with
      | .finish k' r =>
        if k' = k then r :: finishesFrom st' evs k else finishesFrom st' evs k
      | _ => finishesFrom st' evs k

/-- The results callers return with for a key along a trace. -/
def retsFrom {K V E : Type} [DecidableEq K] [DecidableEq V] [DecidableEq E]
    (st : CState K V E) : List (CEvent K V E) → K → List (Except E V)
  | [], _ => []
  | ev :: evs, k =>
    match cstep st ev with
    | none => []
    | some st' =>
      match ev with
      | .ret _ k' r =>
        if k' = k then r :: retsFrom st' evs k else retsFrom st' evs k
      | _ => retsFrom st' evs k

/-- Whether a trace contains a `GetOrCompute` call for a key. -/
def hasCall {K V E : Type} (t : List (CEvent K V E)) (k : K) : Prop :=
  ∃ c, CEvent.call c k ∈ t

/-- The (field, nth) spine of a linear selection tree, following the first
sub-selection at each level. -/
def selSpine : Selection → List (String × Int)
  | .mk _ slr [] => [(slr.field, slr.nth)]
  | .mk _ slr (x :: _) => (slr.field, slr.nth) :: selSpine x

/-- Whether a selection tree is linear: at most one sub-selection per
level. -/
def selLinear : Selection → Bool
  | .mk _ _ [] => true
  | .mk _ _ [x] => selLinear x
  | .mk _ _ (_ :: _ :: _) => false

/-- Field schema of the concrete root class used to run the embedded engine
on closed inputs: a scalar field with one argument, an object-typed field
returning an absent optional, two list-typed fields, a failing field, and an
object-typed field whose value is already an Object. -/
def demoFields : List (String × FieldDef) :=
  [("hello", ⟨.mk "String" none, [("name", .mk "String" none)], []⟩),
   ("absent", ⟨.mk "Query" none, [], []⟩),
   ("items", ⟨.mk "" (some (.mk "Query" none)), [], []⟩),
   ("emptyItems", ⟨.mk "" (some (.mk "Query" none)), [], []⟩),
   ("boom", ⟨.mk "String" none, [], []⟩),
   ("preloaded", ⟨.mk "Query" none, [], []⟩)]

/-- Field dispatch of the concrete root class. `preloaded` returns a value
that is already an Object carrying its own (root) ID. -/
def demoSelect : Val → Selector → Except Err Val := fun _ slr =>
  if slr.field = "hello" then .ok (.vstr "Hello")
  else if slr.field = "absent" then .ok (.vnull "Query" none)
  else if slr.field = "items" then
    .ok (.varr "Query" [.venum "Query" "e1", .venum "Query" "e2"])
  else if slr.field = "emptyItems" then .ok (.varr "Query" [])
  else if slr.field = "boom" then .error (.custom "boom")
  else if slr.field = "preloaded" then
    .ok (.vobj (.mk "Query" none) (.mk (.mk "Query" none) []) (.vstr "pre"))
  else .error (.custom "unhandled field")

/-- A concrete server with root type `Query` and the four primitive scalars,
used to evaluate the embedded engine on closed inputs. -/
def demoServer : Server :=
  ⟨.vobj (.mk "Query" none) (.mk (.mk "Query" none) []) (.vstr "root"),
   [("Query", ⟨demoFields, demoSelect⟩)],
   [("Boolean", ⟨fun rv => match rv with
      | .rbool b => .ok (.vbool b)
      | _ => .error (.custom "invalid boolean")⟩),
    ("Int", ⟨fun rv => match rv with
      | .rint n => .ok (.vint n)
      | _ => .error (.custom "invalid int")⟩),
    ("Float", ⟨fun rv => match rv with
      | .rfloat b => .ok (.vfloat b)
      | _ => .error (.custom "invalid float")⟩),
    ("String", ⟨fun rv => match rv with
      | .rstr str => .ok (.vstr str)
      | _ => .error (.custom "invalid string")⟩)]⟩

/-! ## Theorems -/

/-- Pairwise ≤ on names together with pairwise distinct names gives
pairwise < on names. -/
theorem pairwise_name_lt_of_le_of_ne {l : List IdArg}
    (hle : l.Pairwise (fun a b => a.name ≤ b.name))
    (hne : l.Pairwise (fun a b => a.name ≠ b.name)) :
    l.Pairwise (fun a b => a.name < b.name) := by
  induction l with
  | nil => simp
  | cons a t ih =>
    rw [List.pairwise_cons] at hle hne ⊢
    exact ⟨fun b hb => lt_of_le_of_ne (hle.1 b hb) (hne.1 b hb), ih hle.2 hne.2⟩

/-- With distinct argument names, the name-sorted order is unique: sorting any
two permutations of the same argument list gives the same list. -/
theorem sortIdArgs_eq_of_perm {l1 l2 : List IdArg} (hp : l1.Perm l2)
    (hnd : (l1.map IdArg.name).Nodup) : sortIdArgs l1 = sortIdArgs l2 := by
  haveI : IsTotal IdArg (fun a b => a.name ≤ b.name) :=
    ⟨fun a b => le_total a.name b.name⟩
  haveI : IsTrans IdArg (fun a b => a.name ≤ b.name) :=
    ⟨fun _ _ _ h1 h2 => le_trans h1 h2⟩
  haveI : IsAntisymm IdArg (fun a b => a.name < b.name) :=
    ⟨fun _ _ h1 h2 => absurd h1 (lt_asymm h2)⟩
  have p1 : (sortIdArgs l1).Perm l1 := List.perm_insertionSort _ l1
  have p2 : (sortIdArgs l2).Perm l2 := List.perm_insertionSort _ l2
  have hp' : (sortIdArgs l1).Perm (sortIdArgs l2) := p1.trans (hp.trans p2.symm)
  have s1 : (sortIdArgs l1).Pairwise (fun a b => a.name ≤ b.name) :=
    List.sorted_insertionSort _ l1
  have s2 : (sortIdArgs l2).Pairwise (fun a b => a.name ≤ b.name) :=
    List.sorted_insertionSort _ l2
  have nd1 : ((sortIdArgs l1).map IdArg.name).Nodup :=
    (List.Perm.nodup_iff (p1.map IdArg.name)).2 hnd
  have nd2 : ((sortIdArgs l2).map IdArg.name).Nodup :=
    (List.Perm.nodup_iff (hp'.map IdArg.name)).1 nd1
  have ne1 : (sortIdArgs l1).Pairwise (fun a b => a.name ≠ b.name) :=
    List.pairwise_map.1 nd1
  have ne2 : (sortIdArgs l2).Pairwise (fun a b => a.name ≠ b.name) :=
    List.pairwise_map.1 nd2
  exact List.eq_of_perm_of_sorted hp'
    (pairwise_name_lt_of_le_of_ne s1 ne1)
    (pairwise_name_lt_of_le_of_ne s2 ne2)

/-- C1: for any parent ID, field definition and selector, two argument lists
holding the same (name, value) pairs in different orders (with the
map-invariant of distinct names) extend the ID identically: `appendToID`
sorts the appended selector's arguments by name, so call-site argument order
never affects identity. -/
theorem appendToID_arg_order_irrelevant (id : ID) (field : FieldDef) (f : String)
    (nth : Int) (args1 args2 : List (String × Val))
    (hperm : args1.Perm args2)
    (hnd : (args1.map Prod.fst).Nodup) :
    Selector.appendToID ⟨f, args1, nth⟩ id field =
      Selector.appendToID ⟨f, args2, nth⟩ id field := by
  have hmap : (args1.map (fun a => IdArg.mk a.1 (toLiteral a.2))).Perm
      (args2.map (fun a => IdArg.mk a.1 (toLiteral a.2))) := hperm.map _
  have hnames : ((args1.map (fun a => IdArg.mk a.1 (toLiteral a.2))).map IdArg.name).Nodup := by
    rw [List.map_map]
    have hcomp : (IdArg.name ∘ fun a : String × Val => IdArg.mk a.1 (toLiteral a.2)) =
        Prod.fst := by
      funext a; rfl
    rw [hcomp]; exact hnd
  have hsort := sortIdArgs_eq_of_perm hmap hnames
  simp only [Selector.appendToID, appendedSelector, hsort]

/-- Witness for C1 at a concrete input: swapping two arguments yields the
same extended ID. -/
theorem appendToID_arg_order_irrelevant_witness :
    Selector.appendToID ⟨"fn", [("b", .vint 1), ("a", .vstr "x")], 0⟩
        (ID.mk (.mk "Query" none) []) ⟨.mk "T" none, [], []⟩ =
      Selector.appendToID ⟨"fn", [("a", .vstr "x"), ("b", .vint 1)], 0⟩
        (ID.mk (.mk "Query" none) []) ⟨.mk "T" none, [], []⟩ :=
  appendToID_arg_order_irrelevant _ _ _ _ _ _
    (List.Perm.swap _ _ _) (by decide)

/-- C7: extension never mutates the parent: the extended ID is the parent's
chain plus exactly the one appended selector with the field's result type,
and any two extensions from a shared parent agree with the parent's chain on
its whole length — neither observes the other's appended selector. -/
theorem appendToID_preserves_parent (id : ID) (s1 s2 : Selector) (f1 f2 : FieldDef) :
    (s1.appendToID id f1).constructor = id.constructor ++ [appendedSelector s1 f1] ∧
    (s1.appendToID id f1).type = f1.type ∧
    (s1.appendToID id f1).constructor.take id.constructor.length = id.constructor ∧
    (s2.appendToID id f2).constructor.take id.constructor.length = id.constructor := by
  refine ⟨rfl, rfl, ?_, ?_⟩ <;>
    simp [Selector.appendToID, ID.clone, ID.constructor, List.take_left]

/-- C3 (amended): a selection with non-empty sub-selections whose field value
is nullable-and-absent short-circuits to a null result — whatever the
sub-selections are, none is resolved and no missing-sub-field error occurs —
provided the selection carries no trailing index; with a trailing index the
null result fails the `Enumerable` assertion instead. -/
theorem resolvePath_null_short_circuit (s : Server) (self : Val) (a : String)
    (slr : Selector) (subs : List Selection) (cl : Class) (fd : FieldDef)
    (tn : String)
    (hcl : List.lookup self.typeName s.classes = some cl)
    (hfd : List.lookup slr.field cl.fieldDefs = some fd)
    (hsel : cl.select self slr = .ok (.vnull tn none))
    (hnth : slr.nth = 0)
    (_hsubs : subs ≠ []) :
    s.resolvePath self (.mk a slr subs) = .ok .null := by
  cases subs with
  | nil => simp [Server.resolvePath, hcl, hfd, hsel, applyNth, hnth]
  | cons x xs => simp [Server.resolvePath, hcl, hfd, hsel, applyNth, hnth]

/-- Counterexample to C3 as stated: the same nullable-and-absent field under
non-empty sub-selections, but with a trailing index, errors instead of
returning null. -/
theorem resolvePath_null_nth_counterexample :
    demoServer.resolvePath demoServer.root
      (.mk "" ⟨"absent", [], 1⟩ [.mk "" ⟨"hello", [], 0⟩ []]) =
      .error (.cannotSubSelectNth 1) := by
  simp [Server.resolvePath, demoServer, demoFields, demoSelect, Val.typeName,
    Val.typeOf, GType.name, applyNth, List.lookup]

/-- Witness for C3 (amended) at a concrete input. -/
theorem resolvePath_null_short_circuit_witness :
    demoServer.resolvePath demoServer.root
      (.mk "" ⟨"absent", [], 0⟩ [.mk "" ⟨"hello", [], 0⟩ []]) = .ok .null :=
  resolvePath_null_short_circuit _ _ _ _ _ ⟨demoFields, demoSelect⟩
    ⟨.mk "Query" none, [], []⟩ "Query"
    (by simp [demoServer, Val.typeName, Val.typeOf, GType.name, List.lookup])
    (by simp [demoFields, List.lookup])
    (by simp [demoSelect])
    rfl
    (by simp)

/-- C10: a selection carrying both a trailing index and non-empty
sub-selections against a list-typed field always fails the trailing-index
step, even when the index is within the list's bounds: the assembled
per-element results are a plain `[]any` slice, which does not implement
`Enumerable`. -/
theorem resolvePath_list_nth_always_fails (s : Server) (self : Val) (a : String)
    (slr : Selector) (sub : Selection) (subs : List Selection)
    (cl : Class) (fd : FieldDef) (et : GType) (en : String) (xs : List Val)
    (items : List Res)
    (hcl : List.lookup self.typeName s.classes = some cl)
    (hfd : List.lookup slr.field cl.fieldDefs = some fd)
    (hnamed : fd.type.namedType = "")
    (helem : fd.type.elem = some et)
    (hsel : cl.select self slr = .ok (.varr en xs))
    (helems : s.resolveElems (slr.appendToID self.idOf fd) (sub :: subs) xs 0 =
      .ok items)
    (hnth : slr.nth ≠ 0) :
    s.resolvePath self (.mk a slr (sub :: subs)) =
      .error (.cannotSubSelectNth slr.nth) := by
  simp [Server.resolvePath, hcl, hfd, hsel, hnamed, helem, helems, applyNth, hnth]

/-- Witness for C10 at a concrete input: index 1 is within the two-element
list's bounds, yet the resolution fails. -/
theorem resolvePath_list_nth_always_fails_witness :
    demoServer.resolvePath demoServer.root
      (.mk "" ⟨"items", [], 1⟩ [.mk "" ⟨"hello", [], 0⟩ []]) =
      .error (.cannotSubSelectNth 1) :=
  resolvePath_list_nth_always_fails _ _ _ _ _ _ ⟨demoFields, demoSelect⟩
    ⟨.mk "" (some (.mk "Query" none)), [], []⟩ (.mk "Query" none) "Query"
    [.venum "Query" "e1", .venum "Query" "e2"]
    [.map [("hello", .val (.vstr "Hello"))], .map [("hello", .val (.vstr "Hello"))]]
    (by simp [demoServer, Val.typeName, Val.typeOf, GType.name, List.lookup])
    (by simp [demoFields, List.lookup])
    rfl
    rfl
    (by simp [demoSelect])
    (by simp [Server.resolveElems, Server.resolveSels, Server.resolvePath,
      Server.toSelectable, demoServer, demoFields, demoSelect, Val.typeName,
      Val.typeOf, Val.isObj, GType.name, List.lookup, applyNth, buildMap,
      mapStore, Selection.name, Selection.aliasName, Selection.selector])
    (by decide)

/-- Successful array fan-out: when each element materializes with its
per-index ID and its sub-selections resolve, the per-element loop returns one
result map per element, in strict index order. -/
theorem resolveElems_ok (s : Server) (cid : ID) (subs : List Selection)
    (node : Nat → Val) (stores : Nat → List (String × Res)) :
    ∀ (xs : List Val) (base : Nat),
    (∀ i, (h : i < xs.length) →
      s.toSelectable (cid.nth (Int.ofNat (base + i + 1))) (xs.get ⟨i, h⟩) =
        .ok (node (base + i))) →
    (∀ i, i < xs.length →
      s.resolveSels (node (base + i)) subs = .ok (stores (base + i))) →
    s.resolveElems cid subs xs base =
      .ok ((List.range' base xs.length).map (fun i => .map (buildMap (stores i)))) := by
  intro xs
  induction xs with
  | nil => intro base _ _; simp [Server.resolveElems]
  | cons v rest ih =>
    intro base hnode hstores
    have h0 := hnode 0 (by simp)
    have hs0 := hstores 0 (by simp)
    simp only [Nat.add_zero, List.get] at h0 hs0
    have h0' : s.toSelectable (cid.nth ((base : Int) + 1)) v = .ok (node base) := by
      exact_mod_cast h0
    have hnode' : ∀ i, (h : i < rest.length) →
        s.toSelectable (cid.nth (Int.ofNat (base + 1 + i + 1))) (rest.get ⟨i, h⟩) =
          .ok (node (base + 1 + i)) := by
      intro i h
      have := hnode (i + 1) (by simpa using Nat.succ_lt_succ h)
      simpa [Nat.add_assoc, Nat.add_comm 1 i] using this
    have hstores' : ∀ i, i < rest.length →
        s.resolveSels (node (base + 1 + i)) subs = .ok (stores (base + 1 + i)) := by
      intro i h
      have := hstores (i + 1) (by simpa using Nat.succ_lt_succ h)
      simpa [Nat.add_assoc, Nat.add_comm 1 i] using this
    have hrec := ih (base + 1) hnode' hstores'
    simp [Server.resolveElems, h0', hs0, hrec, List.range'_succ]

/-- C4: sub-selections against a list-typed field fan out over the
enumerable: a zero-length value yields an empty ordered sequence (never
null), and a positive-length value materializes element i (1-based) with its
own per-index ID and collects the per-element result maps in strict index
order. -/
theorem resolvePath_list_fanout (s : Server) (self : Val) (a : String)
    (slr : Selector) (sub : Selection) (subs : List Selection)
    (cl : Class) (fd : FieldDef) (et : GType) (en : String) (xs : List Val)
    (node : Nat → Val) (stores : Nat → List (String × Res))
    (hcl : List.lookup self.typeName s.classes = some cl)
    (hfd : List.lookup slr.field cl.fieldDefs = some fd)
    (hnamed : fd.type.namedType = "")
    (helem : fd.type.elem = some et)
    (hsel : cl.select self slr = .ok (.varr en xs))
    (hnth : slr.nth = 0)
    (hnode : ∀ i, (h : i < xs.length) →
      s.toSelectable ((slr.appendToID self.idOf fd).nth (Int.ofNat (i + 1)))
        (xs.get ⟨i, h⟩) = .ok (node i))
    (hstores : ∀ i, i < xs.length →
      s.resolveSels (node i) (sub :: subs) = .ok (stores i)) :
    s.resolvePath self (.mk a slr (sub :: subs)) =
      .ok (.list ((List.range xs.length).map (fun i => .map (buildMap (stores i))))) ∧
    (xs = [] → s.resolvePath self (.mk a slr (sub :: subs)) = .ok (.list []) ∧
      Res.list [] ≠ Res.null) := by
  have helems := resolveElems_ok s (slr.appendToID self.idOf fd) (sub :: subs)
    node stores xs 0 (by simpa using hnode) (by simpa using hstores)
  have hmain : s.resolvePath self (.mk a slr (sub :: subs)) =
      .ok (.list ((List.range xs.length).map (fun i => .map (buildMap (stores i))))) := by
    simp [Server.resolvePath, hcl, hfd, hsel, hnamed, helem, helems, applyNth,
      hnth, List.range_eq_range']
  refine ⟨hmain, fun hxs => ⟨?_, by simp⟩⟩
  subst hxs
  simpa using hmain

/-- Witness for C4 at concrete inputs: a two-element list fans out in index
order; a zero-length list yields the empty sequence, not null. -/
theorem resolvePath_list_fanout_witness :
    demoServer.resolvePath demoServer.root
      (.mk "" ⟨"items", [], 0⟩ [.mk "" ⟨"hello", [], 0⟩ []]) =
      .ok (.list [.map [("hello", .val (.vstr "Hello"))],
        .map [("hello", .val (.vstr "Hello"))]]) ∧
    demoServer.resolvePath demoServer.root
      (.mk "" ⟨"emptyItems", [], 0⟩ [.mk "" ⟨"hello", [], 0⟩ []]) =
      .ok (.list []) := by
  constructor
  · have h := (resolvePath_list_fanout demoServer demoServer.root ""
      ⟨"items", [], 0⟩ (.mk "" ⟨"hello", [], 0⟩ []) [] ⟨demoFields, demoSelect⟩
      ⟨.mk "" (some (.mk "Query" none)), [], []⟩ (.mk "Query" none) "Query"
      [.venum "Query" "e1", .venum "Query" "e2"]
      (fun i => .vobj (.mk "Query" none)
        (.mk (.mk "Query" none) [.mk "items" [] (Int.ofNat (i + 1)) false false])
        (if i = 0 then .venum "Query" "e1" else .venum "Query" "e2"))
      (fun _ => [("hello", .val (.vstr "Hello"))])
      (by simp [demoServer, Val.typeName, Val.typeOf, GType.name, List.lookup])
      (by simp [demoFields, List.lookup])
      rfl
      rfl
      (by simp [demoSelect])
      rfl
      (by
        intro i h
        simp only [List.length_cons, List.length_nil] at h
        interval_cases i <;>
          simp [Server.toSelectable, demoServer, Val.typeName, Val.typeOf,
            Val.isObj, GType.name, List.lookup, Selector.appendToID,
            appendedSelector, sortIdArgs, ID.clone, ID.nth, ID.type, GType.elem,
            ID.constructor, setLastNth, Val.idOf])
      (by
        intro i h
        simp only [List.length_cons, List.length_nil] at h
        interval_cases i <;>
          simp [Server.resolveSels, Server.resolvePath, demoServer, demoFields,
            demoSelect, Val.typeName, Val.typeOf, GType.name, List.lookup,
            applyNth, Selection.name, Selection.aliasName,
            Selection.selector])).1
    simpa using h
  · exact ((resolvePath_list_fanout demoServer demoServer.root ""
      ⟨"emptyItems", [], 0⟩ (.mk "" ⟨"hello", [], 0⟩ []) [] ⟨demoFields, demoSelect⟩
      ⟨.mk "" (some (.mk "Query" none)), [], []⟩ (.mk "Query" none) "Query" []
      (fun _ => .vstr "unused") (fun _ => [])
      (by simp [demoServer, Val.typeName, Val.typeOf, GType.name, List.lookup])
      (by simp [demoFields, List.lookup])
      rfl
      rfl
      (by simp [demoSelect])
      rfl
      (by intro i h; exact absurd h (Nat.not_lt_zero i))
      (by intro i h; exact absurd h (Nat.not_lt_zero i))).2 rfl).1

/-- `Resolve` errors exactly when the sibling loop errors (the result map is
only assembled on success). -/
theorem resolve_error_iff (s : Server) (self : Val) (sels : List Selection)
    (e : Err) :
    s.Resolve self sels = .error e ↔ s.resolveSels self sels = .error e := by
  unfold Server.Resolve
  cases hs : s.resolveSels self sels <;> simp [Except.map]

/-- C5: when a sibling selection fails (the earlier siblings having
succeeded), `Resolve` returns that error wrapped with the failing
selection's name and returns no result map at all — the successful siblings'
results do not surface as a partial success. -/
theorem resolve_sibling_failure (s : Server) (self : Val)
    (pre post : List Selection) (sel : Selection) (e : Err)
    (f : Selection → Res)
    (hpre : ∀ p ∈ pre, s.resolvePath self p = .ok (f p))
    (hfail : s.resolvePath self sel = .error e) :
    s.Resolve self (pre ++ sel :: post) = .error (.selName sel.name e) := by
  induction pre with
  | nil => simp [Server.Resolve, Server.resolveSels, hfail, Except.map]
  | cons p ps ih =>
    have hp := hpre p (by simp)
    have hrec := ih (fun q hq => hpre q (by simp [hq]))
    have hrsels := (resolve_error_iff s self (ps ++ sel :: post) _).1 hrec
    simp [Server.Resolve, Server.resolveSels, hp, hrsels, Except.map]

/-- Witness for C5 at a concrete input: of three siblings the second fails;
the group fails with the second's name and no result map. -/
theorem resolve_sibling_failure_witness :
    demoServer.Resolve demoServer.root
      [.mk "" ⟨"hello", [], 0⟩ [], .mk "" ⟨"boom", [], 0⟩ [],
       .mk "third" ⟨"hello", [], 0⟩ []] =
      .error (.selName "boom" (.custom "boom")) := by
  have h := resolve_sibling_failure demoServer demoServer.root
    [.mk "" ⟨"hello", [], 0⟩ []] [.mk "third" ⟨"hello", [], 0⟩ []]
    (.mk "" ⟨"boom", [], 0⟩ []) (.custom "boom") (fun _ => .val (.vstr "Hello"))
    (by
      intro p hp
      simp only [List.mem_singleton] at hp
      subst hp
      simp [Server.resolvePath, demoServer, demoFields, demoSelect, Val.typeName,
        Val.typeOf, GType.name, List.lookup, applyNth])
    (by
      simp [Server.resolvePath, demoServer, demoFields, demoSelect, Val.typeName,
        Val.typeOf, GType.name, List.lookup, applyNth])
  simpa [Selection.name, Selection.aliasName, Selection.selector] using h

/-- Storing a fresh key appends it. -/
theorem mapStore_fresh (m : List (String × Res)) (k : String) (v : Res)
    (hk : k ∉ m.map Prod.fst) : mapStore m k v = m ++ [(k, v)] := by
  induction m with
  | nil => rfl
  | cons kv rest ih =>
    obtain ⟨k2, v2⟩ := kv
    simp only [List.map_cons, List.mem_cons, not_or] at hk
    have hne : ¬ k2 = k := fun hc => hk.1 hc.symm
    simp [mapStore, hne, ih hk.2]

/-- Folding stores over entries with globally distinct keys appends them all
in order. -/
theorem foldl_mapStore_fresh (l : List (String × Res)) :
    ∀ acc : List (String × Res),
    (acc.map Prod.fst ++ l.map Prod.fst).Nodup →
    l.foldl (fun a kv => mapStore a kv.1 kv.2) acc = acc ++ l := by
  induction l with
  | nil => intro acc _; simp
  | cons kv rest ih =>
    intro acc hnd
    obtain ⟨k, v⟩ := kv
    have hdisj := (List.nodup_append.1 hnd).2.2
    have hk : k ∉ acc.map Prod.fst := fun hmem => hdisj hmem (by simp)
    have hstep : mapStore acc k v = acc ++ [(k, v)] := mapStore_fresh _ _ _ hk
    have hnd2 : ((acc ++ [(k, v)]).map Prod.fst ++ rest.map Prod.fst).Nodup := by
      simpa using hnd
    have hrec := ih (acc ++ [(k, v)]) hnd2
    simp only [List.foldl_cons, hstep, hrec, List.append_assoc, List.cons_append,
      List.nil_append]

/-- With distinct keys the result-map assembly is the identity. -/
theorem buildMap_nodup (l : List (String × Res))
    (hnd : (l.map Prod.fst).Nodup) : buildMap l = l := by
  have h := foldl_mapStore_fresh l [] (by simpa using hnd)
  simpa [buildMap] using h

/-- When every sibling succeeds, the store loop records one entry per
selection, keyed by the selection's name, in sibling order. -/
theorem resolveSels_ok (s : Server) (self : Val) (f : Selection → Res) :
    ∀ sels : List Selection,
    (∀ sel ∈ sels, s.resolvePath self sel = .ok (f sel)) →
    s.resolveSels self sels = .ok (sels.map (fun sel => (sel.name, f sel))) := by
  intro sels
  induction sels with
  | nil => intro _; simp [Server.resolveSels]
  | cons sel rest ih =>
    intro hok
    have h1 := hok sel (by simp)
    have h2 := ih (fun q hq => hok q (by simp [hq]))
    simp [Server.resolveSels, h1, h2]

/-- C9 (amended): for a sibling group that all resolve successfully and whose
names (alias when non-empty, field name otherwise) are distinct, the map
returned by `Resolve` has exactly one entry per selection, keyed by the
selection's name. -/
theorem resolve_result_map_keys (s : Server) (self : Val)
    (sels : List Selection) (f : Selection → Res)
    (hnd : (sels.map Selection.name).Nodup)
    (hok : ∀ sel ∈ sels, s.resolvePath self sel = .ok (f sel)) :
    s.Resolve self sels = .ok (sels.map (fun sel => (sel.name, f sel))) ∧
    (sels.map (fun sel => (sel.name, f sel))).length = sels.length := by
  have h1 := resolveSels_ok s self f sels hok
  have h2 : buildMap (sels.map (fun sel => (sel.name, f sel))) =
      sels.map (fun sel => (sel.name, f sel)) := by
    refine buildMap_nodup _ ?_
    have hmm : (sels.map (fun sel => (sel.name, f sel))).map Prod.fst =
        sels.map Selection.name := by
      rw [List.map_map]; rfl
    rw [hmm]; exact hnd
  exact ⟨by simp [Server.Resolve, h1, h2, Except.map], by simp⟩

/-- Counterexample to C9 as stated: two successfully-resolving siblings that
share the name `hello` produce a map with a single entry (the later store
overwrites), not one entry per selection. -/
theorem resolve_duplicate_name_counterexample :
    demoServer.Resolve demoServer.root
      [.mk "" ⟨"hello", [], 0⟩ [], .mk "hello" ⟨"preloaded", [], 0⟩ []] =
      .ok [("hello",
        .val (.vobj (.mk "Query" none) (.mk (.mk "Query" none) []) (.vstr "pre")))] ∧
    ([("hello",
        Res.val (.vobj (.mk "Query" none) (.mk (.mk "Query" none) []) (.vstr "pre")))].length ≠
      [Selection.mk "" ⟨"hello", [], 0⟩ [],
       Selection.mk "hello" ⟨"preloaded", [], 0⟩ []].length) := by
  have h1 : demoServer.resolvePath demoServer.root (.mk "" ⟨"hello", [], 0⟩ []) =
      .ok (.val (.vstr "Hello")) := by
    simp [Server.resolvePath, demoServer, demoFields, demoSelect, Val.typeName,
      Val.typeOf, GType.name, List.lookup, applyNth]
  have h2 : demoServer.resolvePath demoServer.root
      (.mk "hello" ⟨"preloaded", [], 0⟩ []) =
      .ok (.val (.vobj (.mk "Query" none) (.mk (.mk "Query" none) []) (.vstr "pre"))) := by
    simp [Server.resolvePath, demoServer, demoFields, demoSelect, Val.typeName,
      Val.typeOf, GType.name, List.lookup, applyNth]
  have hsels : demoServer.resolveSels demoServer.root
      [.mk "" ⟨"hello", [], 0⟩ [], .mk "hello" ⟨"preloaded", [], 0⟩ []] =
      .ok [("hello", .val (.vstr "Hello")),
        ("hello", .val (.vobj (.mk "Query" none) (.mk (.mk "Query" none) [])
          (.vstr "pre")))] := by
    simp [Server.resolveSels, h1, h2, Selection.name, Selection.aliasName,
      Selection.selector]
  constructor
  · have hres : demoServer.Resolve demoServer.root
        [.mk "" ⟨"hello", [], 0⟩ [], .mk "hello" ⟨"preloaded", [], 0⟩ []] =
        Except.map buildMap (demoServer.resolveSels demoServer.root
          [.mk "" ⟨"hello", [], 0⟩ [], .mk "hello" ⟨"preloaded", [], 0⟩ []]) := rfl
    rw [hres, hsels]
    rfl
  · simp

/-- Witness for C9 (amended) at a concrete input: three successful siblings
with distinct names give exactly three entries keyed by alias-or-field-name. -/
theorem resolve_result_map_keys_witness :
    demoServer.Resolve demoServer.root
      [.mk "" ⟨"hello", [], 0⟩ [], .mk "h2" ⟨"hello", [], 0⟩ [],
       .mk "" ⟨"preloaded", [], 0⟩ []] =
      .ok [("hello", .val (.vstr "Hello")), ("h2", .val (.vstr "Hello")),
        ("preloaded",
          .val (.vobj (.mk "Query" none) (.mk (.mk "Query" none) []) (.vstr "pre")))] := by
  have h := (resolve_result_map_keys demoServer demoServer.root
    [.mk "" ⟨"hello", [], 0⟩ [], .mk "h2" ⟨"hello", [], 0⟩ [],
     .mk "" ⟨"preloaded", [], 0⟩ []]
    (fun sel => if sel.name = "preloaded" then
        .val (.vobj (.mk "Query" none) (.mk (.mk "Query" none) []) (.vstr "pre"))
      else .val (.vstr "Hello"))
    (by simp [Selection.name, Selection.aliasName, Selection.selector])
    (by
      intro sel hmem
      simp only [List.mem_cons, List.not_mem_nil, or_false] at hmem
      rcases hmem with rfl | rfl | rfl <;>
        simp [Server.resolvePath, demoServer, demoFields, demoSelect,
          Val.typeName, Val.typeOf, GType.name, List.lookup, applyNth,
          Selection.name, Selection.aliasName, Selection.selector])).1
  exact h.trans rfl

/-- Case analysis of `toSelectable` on success: an Object passes through
unchanged, anything else is wrapped into an instance stamped with the given
ID. -/
theorem toSelectable_cases (s : Server) (cid : ID) (v w : Val)
    (h : s.toSelectable cid v = .ok w) :
    (v.isObj = true ∧ w = v) ∨ (v.isObj = false ∧ w = .vobj v.typeOf cid v) := by
  unfold Server.toSelectable at h
  cases hv : v.isObj with
  | true =>
    rw [hv] at h
    simp only [if_true] at h
    simp only [Except.ok.injEq] at h
    exact .inl ⟨rfl, h.symm⟩
  | false =>
    rw [hv] at h
    simp only [Bool.false_eq_true, if_false] at h
    cases h4 : List.lookup v.typeName s.classes with
    | none => rw [h4] at h; simp at h
    | some cl =>
      rw [h4] at h
      simp only [Except.ok.injEq] at h
      exact .inr ⟨rfl, h.symm⟩

/-- The synthetic selection tree built by `constructorToSelection` is linear
and replays the chain: one selection per chain element, each wrapping the
next, carrying the element's field and trailing index. -/
theorem constructorToSelection_spine (s : Server) :
    ∀ (rest : List IdSel) (selfType : GType) (first : IdSel) (sel : Selection),
    s.constructorToSelection selfType first rest = .ok sel →
    selSpine sel = (first :: rest).map (fun c => (c.field, c.nth)) ∧
    selLinear sel = true := by
  intro rest
  induction rest with
  | nil =>
    intro selfType first sel h
    simp only [Server.constructorToSelection] at h
    cases hcl : List.lookup selfType.name s.classes with
    | none => rw [hcl] at h; simp at h
    | some cl =>
      rw [hcl] at h
      dsimp only at h
      cases hfd : List.lookup first.field cl.fieldDefs with
      | none => rw [hfd] at h; simp at h
      | some fd =>
        rw [hfd] at h
        dsimp only at h
        cases hargs : s.decodeIdArgs fd first.args with
        | error e => rw [hargs] at h; simp at h
        | ok args =>
          rw [hargs] at h
          dsimp only at h
          simp only [Except.ok.injEq] at h
          subst h
          simp [selSpine, selLinear]
  | cons r rs ih =>
    intro selfType first sel h
    rw [Server.constructorToSelection.eq_def] at h
    dsimp only at h
    cases hcl : List.lookup selfType.name s.classes with
    | none => rw [hcl] at h; simp at h
    | some cl =>
      rw [hcl] at h
      dsimp only at h
      cases hfd : List.lookup first.field cl.fieldDefs with
      | none => rw [hfd] at h; simp at h
      | some fd =>
        rw [hfd] at h
        dsimp only at h
        cases hargs : s.decodeIdArgs fd first.args with
        | error e => rw [hargs] at h; simp at h
        | ok args =>
          rw [hargs] at h
          dsimp only at h
          cases hrec : s.constructorToSelection fd.type r rs with
          | error e => rw [hrec] at h; simp at h
          | ok sub =>
            rw [hrec] at h
            dsimp only at h
            simp only [Except.ok.injEq] at h
            subst h
            have hsub := ih fd.type r sub hrec
            simp [selSpine, selLinear, hsub.1, hsub.2]

/-- C2 (amended): `Load` with an empty chain returns the root; a non-empty
chain is replayed by `constructorToSelection` as a linear nested selection
tree (one selection per chain element, each wrapping the next), resolved once
against the root, and the drilled-down final value is materialized via
`toSelectable` with the original ID: a value that is not already an Object is
wrapped into an Object stamped with the original ID, while a value that is
already an Object is returned as-is, keeping its own ID. -/
theorem load_replays_chain (s : Server) (id : ID) :
    (id.constructor = [] → s.load id = .ok s.root) ∧
    (∀ selfTy first rest sel,
      s.constructorToSelection selfTy first rest = .ok sel →
      selSpine sel = (first :: rest).map (fun c => (c.field, c.nth)) ∧
      selLinear sel = true) ∧
    (∀ first rest, id.constructor = first :: rest → ∀ w, s.load id = .ok w →
      ∃ v, s.toSelectable id v = .ok w ∧
        (v.isObj = false → w = .vobj v.typeOf id v) ∧
        (v.isObj = true → w = v)) := by
  refine ⟨?_, ?_, ?_⟩
  · intro h
    cases id with
    | mk t c =>
      simp only [ID.constructor] at h
      subst h
      rfl
  · intro selfTy first rest sel h
    exact constructorToSelection_spine s rest selfTy first sel h
  · intro first rest hc w hw
    cases id with
    | mk t c =>
      simp only [ID.constructor] at hc
      subst hc
      simp only [Server.load, ID.constructor] at hw
      cases h1 : s.constructorToSelection s.root.typeOf first rest with
      | error e => rw [h1] at hw; simp at hw
      | ok sel =>
        rw [h1] at hw
        dsimp only at hw
        cases h2 : s.Resolve s.root [sel] with
        | error e => rw [h2] at hw; simp at hw
        | ok m =>
          rw [h2] at hw
          dsimp only at hw
          cases h3 : drillRes (.map m) (first :: rest) with
          | error e => rw [h3] at hw; simp at hw
          | ok final =>
            rw [h3] at hw
            dsimp only at hw
            cases final with
            | null => simp at hw
            | map m2 => simp at hw
            | list l => simp at hw
            | val v =>
              dsimp only at hw
              refine ⟨v, hw, ?_, ?_⟩
              · intro hnob
                rcases toSelectable_cases s (.mk t (first :: rest)) v w hw with
                  ⟨ho, _⟩ | ⟨_, hwv⟩
                · rw [hnob] at ho; cases ho
                · exact hwv
              · intro hob
                rcases toSelectable_cases s (.mk t (first :: rest)) v w hw with
                  ⟨_, hwv⟩ | ⟨ho, _⟩
                · exact hwv
                · rw [hob] at ho; cases ho

/-- Counterexample to C2 as stated: loading a one-element chain whose final
value is already an Object returns that object with its own (empty-chain) ID,
not an object stamped with the requested one-element ID. -/
theorem load_preloaded_counterexample :
    demoServer.load (.mk (.mk "Query" none) [.mk "preloaded" [] 0 false false]) =
      .ok (.vobj (.mk "Query" none) (.mk (.mk "Query" none) []) (.vstr "pre")) ∧
    (Val.vobj (.mk "Query" none) (.mk (.mk "Query" none) []) (.vstr "pre")).idOf.constructor.length ≠
      (ID.mk (.mk "Query" none) [.mk "preloaded" [] 0 false false]).constructor.length := by
  constructor
  · have h2 : demoServer.resolvePath demoServer.root (.mk "" ⟨"preloaded", [], 0⟩ []) =
        .ok (.val (.vobj (.mk "Query" none) (.mk (.mk "Query" none) []) (.vstr "pre"))) := by
      simp [Server.resolvePath, demoServer, demoFields, demoSelect, Val.typeName,
        Val.typeOf, GType.name, List.lookup, applyNth]
    have h3 : demoServer.resolveSels demoServer.root [.mk "" ⟨"preloaded", [], 0⟩ []] =
        .ok [("preloaded",
          .val (.vobj (.mk "Query" none) (.mk (.mk "Query" none) []) (.vstr "pre")))] := by
      simp [Server.resolveSels, h2, Selection.name, Selection.aliasName,
        Selection.selector]
    have h1 : demoServer.constructorToSelection demoServer.root.typeOf
        (.mk "preloaded" [] 0 false false) [] =
        .ok (.mk "" ⟨"preloaded", [], 0⟩ []) := rfl
    have hres : demoServer.Resolve demoServer.root [.mk "" ⟨"preloaded", [], 0⟩ []] =
        .ok [("preloaded",
          .val (.vobj (.mk "Query" none) (.mk (.mk "Query" none) []) (.vstr "pre")))] := by
      have hr0 : demoServer.Resolve demoServer.root [.mk "" ⟨"preloaded", [], 0⟩ []] =
          Except.map buildMap
            (demoServer.resolveSels demoServer.root [.mk "" ⟨"preloaded", [], 0⟩ []]) := rfl
      rw [hr0, h3]
      rfl
    simp only [Server.load, ID.constructor]
    rw [h1]
    dsimp only
    rw [hres]
    rfl
  · simp [Val.idOf, ID.constructor]

/-- Witness for C2 (amended) at concrete inputs: the empty chain loads the
root, and a replayed one-element chain has the matching linear spine. -/
theorem load_replays_chain_witness :
    demoServer.load (.mk (.mk "Query" none) []) = .ok demoServer.root ∧
    selSpine (.mk "" ⟨"hello", [], 0⟩ []) = [("hello", 0)] ∧
    selLinear (.mk "" ⟨"hello", [], 0⟩ []) = true := by
  refine ⟨(load_replays_chain demoServer (.mk (.mk "Query" none) [])).1 rfl, ?_⟩
  have h := (load_replays_chain demoServer (.mk (.mk "Query" none) [])).2.1
    (.mk "Query" none) (.mk "hello" [] 0 false false) [] (.mk "" ⟨"hello", [], 0⟩ [])
    rfl
  exact ⟨by simpa [IdSel.field, IdSel.nth] using h.1, h.2⟩

/-- C6: decoding a selection argument absent from the field's declared
schema: the ID-replay path (`constructorToSelection`) returns the
unknown-argument error naming the argument, but the wire-query path
(`parseASTSelections`) dereferences the shadowed nil argument definition
while formatting that error and panics (nil pointer dereference) instead of
returning it. -/
theorem unknown_argument_two_paths :
    demoServer.constructorToSelection (.mk "Query" none)
      (.mk "hello" [.mk "bogus" (.lstr "x")] 0 false false) [] =
      .error (.unknownArgument "bogus") ∧
    demoServer.parseASTSelections
      [.mk "" "hello" [("bogus", .rstr "x")] [("name", .mk "String" none)] []] =
      .nilDeref := by
  constructor
  · rfl
  · simp [Server.parseASTSelections, Server.parseArgs, List.lookup]

theorem lookup_setEntry_self {K V E : Type} [DecidableEq K]
    (st : CState K V E) (k : K) (e : CEntry V E) :
    List.lookup k (setEntry st k e) = some e := by
  induction st with
  | nil => simp [setEntry, List.lookup]
  | cons kv rest ih =>
    obtain ⟨k2, e2⟩ := kv
    by_cases hk : k2 = k
    · subst hk; simp [setEntry, List.lookup]
    · have hb : (k == k2) = false := beq_eq_false_iff_ne.mpr (Ne.symm hk)
      simp [setEntry, hk, List.lookup, hb, ih]

theorem lookup_setEntry_other {K V E : Type} [DecidableEq K]
    (st : CState K V E) (k k2 : K) (e : CEntry V E) (hne : k2 ≠ k) :
    List.lookup k2 (setEntry st k e) = List.lookup k2 st := by
  induction st with
  | nil =>
    have hb : (k2 == k) = false := beq_eq_false_iff_ne.mpr hne
    simp [setEntry, List.lookup, hb]
  | cons kv rest ih =>
    obtain ⟨k3, e3⟩ := kv
    by_cases hk : k3 = k
    · subst hk
      have hb : (k2 == k3) = false := beq_eq_false_iff_ne.mpr hne
      simp [setEntry, List.lookup, hb]
    · simp [setEntry, hk, List.lookup, ih]

theorem cache_trace_inv {K V E : Type} [DecidableEq K] [DecidableEq V]
    [DecidableEq E] (k : K) :
    ∀ (t : List (CEvent K V E)) (st : CState K V E), validFrom st t →
      (List.lookup k st = none →
        startsFrom st t k ≤ 1 ∧ (finishesFrom st t k).length ≤ 1 ∧
        (∀ x ∈ retsFrom st t k, x ∈ finishesFrom st t k) ∧
        (∀ x ∈ retsFrom st t k, ∀ y ∈ retsFrom st t k, x = y) ∧
        (hasCall t k → startsFrom st t k = 1)) ∧
      (∀ o ws, List.lookup k st = some (.inflight o ws) →
        startsFrom st t k = 0 ∧ (finishesFrom st t k).length ≤ 1 ∧
        (∀ x ∈ retsFrom st t k, x ∈ finishesFrom st t k) ∧
        (∀ x ∈ retsFrom st t k, ∀ y ∈ retsFrom st t k, x = y)) ∧
      (∀ r, List.lookup k st = some (.done r) →
        startsFrom st t k = 0 ∧ finishesFrom st t k = [] ∧
        (∀ x ∈ retsFrom st t k, x = r)) := by
  intro t
  induction t with
  | nil =>
    intro st _
    refine ⟨fun _ => ?_, fun o ws _ => ?_, fun r _ => ?_⟩ <;>
      simp [startsFrom, finishesFrom, retsFrom, hasCall]
  | cons ev evs ih =>
    intro st hvalid
    obtain ⟨st', hstep, hvalid'⟩ : ∃ st', cstep st ev = some st' ∧ validFrom st' evs := by
      cases hstep : cstep st ev with
      | none => simp [validFrom, crun, hstep] at hvalid
      | some st' =>
        refine ⟨st', rfl, ?_⟩
        simpa [validFrom, crun, hstep] using hvalid
    have IH := ih st' hvalid'
    cases ev with
    | call c k2 =>
      by_cases hk : k = k2
      · subst hk
        refine ⟨fun hcur => ?_, fun o ws hcur => ?_, fun r hcur => ?_⟩
        · -- absent: this call starts the computation
          simp only [cstep, hcur] at hstep
          injection hstep with hstep
          subst hstep
          have hin : List.lookup k ((k, CEntry.inflight c []) :: st) =
              some (.inflight c []) := by simp [List.lookup]
          have hB := (IH.2.1) c [] hin
          refine ⟨?_, ?_, ?_, ?_, ?_⟩
          · simp [startsFrom, cstep, hcur, isStart, hB.1, List.lookup]
          · simpa [finishesFrom, cstep, hcur] using hB.2.1
          · simpa [finishesFrom, retsFrom, cstep, hcur] using hB.2.2.1
          · simpa [retsFrom, cstep, hcur] using hB.2.2.2
          · intro _
            simp [startsFrom, cstep, hcur, isStart, hB.1, List.lookup]
        · -- in flight: the caller joins the waiters
          simp only [cstep, hcur] at hstep
          injection hstep with hstep
          subst hstep
          have hin : List.lookup k (setEntry st k (.inflight o (c :: ws))) =
              some (.inflight o (c :: ws)) := lookup_setEntry_self st k _
          have hB := (IH.2.1) o (c :: ws) hin
          refine ⟨?_, ?_, ?_, ?_⟩
          · simp [startsFrom, cstep, hcur, isStart, hB.1]
          · simpa [finishesFrom, cstep, hcur] using hB.2.1
          · simpa [finishesFrom, retsFrom, cstep, hcur] using hB.2.2.1
          · simpa [retsFrom, cstep, hcur] using hB.2.2.2
        · -- done: the caller returns immediately, state unchanged
          simp only [cstep, hcur] at hstep
          injection hstep with hstep
          subst hstep
          have hC := (IH.2.2) r hcur
          refine ⟨?_, ?_, ?_⟩
          · simp [startsFrom, cstep, hcur, isStart, hC.1]
          · simpa [finishesFrom, cstep, hcur] using hC.2.1
          · simpa [retsFrom, cstep, hcur] using hC.2.2
      · -- a call for another digest leaves this digest's entry unchanged
        have hpres : List.lookup k st' = List.lookup k st := by
          simp only [cstep] at hstep
          cases h2 : List.lookup k2 st with
          | none =>
            rw [h2] at hstep
            injection hstep with hstep
            subst hstep
            have hb : (k == k2) = false := beq_eq_false_iff_ne.mpr hk
            simp [List.lookup, hb]
          | some e2 =>
            rw [h2] at hstep
            cases e2 with
            | inflight o2 ws2 =>
              dsimp only at hstep
              injection hstep with hstep
              subst hstep
              exact lookup_setEntry_other st k2 k _ hk
            | done r2 =>
              dsimp only at hstep
              injection hstep with hstep
              subst hstep
              rfl
        have hnostart : isStart st (CEvent.call c k2) k = false := by
          simp [isStart, Ne.symm hk]
        refine ⟨fun hcur => ?_, fun o ws hcur => ?_, fun r hcur => ?_⟩
        · have hA := IH.1 (hpres.trans hcur)
          refine ⟨?_, ?_, ?_, ?_, ?_⟩
          · simpa [startsFrom, hstep, hnostart] using hA.1
          · simpa [finishesFrom, hstep] using hA.2.1
          · simpa [finishesFrom, retsFrom, hstep] using hA.2.2.1
          · simpa [retsFrom, hstep] using hA.2.2.2.1
          · intro hcall
            obtain ⟨c3, hmem⟩ := hcall
            rcases List.mem_cons.1 hmem with heq | hmem2
            · injection heq with h1 h2
              exact absurd h2 hk
            · have := hA.2.2.2.2 ⟨c3, hmem2⟩
              simpa [startsFrom, hstep, hnostart] using this
        · have hB := IH.2.1 o ws (hpres.trans hcur)
          refine ⟨?_, ?_, ?_, ?_⟩
          · simpa [startsFrom, hstep, hnostart] using hB.1
          · simpa [finishesFrom, hstep] using hB.2.1
          · simpa [finishesFrom, retsFrom, hstep] using hB.2.2.1
          · simpa [retsFrom, hstep] using hB.2.2.2
        · have hC := IH.2.2 r (hpres.trans hcur)
          refine ⟨?_, ?_, ?_⟩
          · simpa [startsFrom, hstep, hnostart] using hC.1
          · simpa [finishesFrom, hstep] using hC.2.1
          · simpa [retsFrom, hstep] using hC.2.2
    | finish k2 r2 =>
      have hnostart : isStart st (CEvent.finish k2 r2) k = false := by simp [isStart]
      by_cases hk : k = k2
      · subst hk
        refine ⟨fun hcur => ?_, fun o ws hcur => ?_, fun r hcur => ?_⟩
        · simp only [cstep, hcur] at hstep
          cases hstep
        · -- the single in-flight computation completes
          simp only [cstep, hcur] at hstep
          injection hstep with hstep
          subst hstep
          have hdn : List.lookup k (setEntry st k (.done r2)) = some (.done r2) :=
            lookup_setEntry_self st k _
          have hC := (IH.2.2) r2 hdn
          refine ⟨?_, ?_, ?_, ?_⟩
          · simp [startsFrom, cstep, hcur, hnostart, hC.1]
          · simp [finishesFrom, cstep, hcur, hC.2.1]
          · intro x hx
            rw [show retsFrom st (CEvent.finish k r2 :: evs) k =
                retsFrom (setEntry st k (.done r2)) evs k by
              simp [retsFrom, cstep, hcur]] at hx
            have hxr := hC.2.2 x hx
            subst hxr
            simp [finishesFrom, cstep, hcur]
          · intro x hx y hy
            rw [show retsFrom st (CEvent.finish k r2 :: evs) k =
                retsFrom (setEntry st k (.done r2)) evs k by
              simp [retsFrom, cstep, hcur]] at hx hy
            rw [hC.2.2 x hx, hC.2.2 y hy]
        · simp only [cstep, hcur] at hstep
          cases hstep
      · -- a finish for another digest leaves this digest's entry unchanged
        have hpres : List.lookup k st' = List.lookup k st := by
          simp only [cstep] at hstep
          cases h2 : List.lookup k2 st with
          | none => rw [h2] at hstep; cases hstep
          | some e2 =>
            rw [h2] at hstep
            cases e2 with
            | inflight o2 ws2 =>
              dsimp only at hstep
              injection hstep with hstep
              subst hstep
              exact lookup_setEntry_other st k2 k _ hk
            | done r3 => dsimp only at hstep; cases hstep
        have hne2 : ¬ (k2 = k) := fun h => hk h.symm
        refine ⟨fun hcur => ?_, fun o ws hcur => ?_, fun r hcur => ?_⟩
        · have hA := IH.1 (hpres.trans hcur)
          refine ⟨?_, ?_, ?_, ?_, ?_⟩
          · simpa [startsFrom, hstep, hnostart] using hA.1
          · simpa [finishesFrom, hstep, hne2] using hA.2.1
          · simpa [finishesFrom, retsFrom, hstep, hne2] using hA.2.2.1
          · simpa [retsFrom, hstep] using hA.2.2.2.1
          · intro hcall
            obtain ⟨c3, hmem⟩ := hcall
            rcases List.mem_cons.1 hmem with heq | hmem2
            · cases heq
            · have := hA.2.2.2.2 ⟨c3, hmem2⟩
              simpa [startsFrom, hstep, hnostart] using this
        · have hB := IH.2.1 o ws (hpres.trans hcur)
          refine ⟨?_, ?_, ?_, ?_⟩
          · simpa [startsFrom, hstep, hnostart] using hB.1
          · simpa [finishesFrom, hstep, hne2] using hB.2.1
          · simpa [finishesFrom, retsFrom, hstep, hne2] using hB.2.2.1
          · simpa [retsFrom, hstep] using hB.2.2.2
        · have hC := IH.2.2 r (hpres.trans hcur)
          refine ⟨?_, ?_, ?_⟩
          · simpa [startsFrom, hstep, hnostart] using hC.1
          · simpa [finishesFrom, hstep, hne2] using hC.2.1
          · simpa [retsFrom, hstep] using hC.2.2
    | ret c k2 r2 =>
      have hnostart : isStart st (CEvent.ret c k2 r2) k = false := by simp [isStart]
      have hret : ∃ r', List.lookup k2 st = some (.done r') ∧ r2 = r' ∧ st = st' := by
        simp only [cstep] at hstep
        cases h2 : List.lookup k2 st with
        | none => rw [h2] at hstep; cases hstep
        | some e2 =>
          rw [h2] at hstep
          cases e2 with
          | inflight o2 ws2 => dsimp only at hstep; cases hstep
          | done r3 =>
            dsimp only at hstep
            by_cases hr : r2 = r3
            · rw [if_pos hr] at hstep
              injection hstep with hstep
              exact ⟨r3, rfl, hr, hstep⟩
            · rw [if_neg hr] at hstep
              cases hstep
      obtain ⟨r', hls, hr2, hstq⟩ := hret
      subst hstq
      subst hr2
      by_cases hk : k = k2
      · subst hk
        refine ⟨fun hcur => ?_, fun o ws hcur => ?_, fun r hcur => ?_⟩
        · rw [hcur] at hls; cases hls
        · rw [hcur] at hls; cases hls
        · have hC := IH.2.2 r hcur
          rw [hcur] at hls
          simp only [Option.some.injEq, CEntry.done.injEq] at hls
          subst hls
          refine ⟨?_, ?_, ?_⟩
          · simp [startsFrom, hstep, hnostart, hC.1]
          · simpa [finishesFrom, hstep] using hC.2.1
          · intro x hx
            rw [show retsFrom st (CEvent.ret c k r :: evs) k =
                r :: retsFrom st evs k by simp [retsFrom, hstep]] at hx
            rcases List.mem_cons.1 hx with hxe | hxm
            · exact hxe
            · exact hC.2.2 x hxm
      · have hne2 : ¬ (k2 = k) := fun h => hk h.symm
        refine ⟨fun hcur => ?_, fun o ws hcur => ?_, fun r hcur => ?_⟩
        · have hA := IH.1 hcur
          refine ⟨?_, ?_, ?_, ?_, ?_⟩
          · simpa [startsFrom, hstep, hnostart] using hA.1
          · simpa [finishesFrom, hstep] using hA.2.1
          · simpa [finishesFrom, retsFrom, hstep, hne2] using hA.2.2.1
          · simpa [retsFrom, hstep, hne2] using hA.2.2.2.1
          · intro hcall
            obtain ⟨c3, hmem⟩ := hcall
            rcases List.mem_cons.1 hmem with heq | hmem2
            · cases heq
            · have := hA.2.2.2.2 ⟨c3, hmem2⟩
              simpa [startsFrom, hstep, hnostart] using this
        · have hB := IH.2.1 o ws hcur
          refine ⟨?_, ?_, ?_, ?_⟩
          · simpa [startsFrom, hstep, hnostart] using hB.1
          · simpa [finishesFrom, hstep] using hB.2.1
          · simpa [finishesFrom, retsFrom, hstep, hne2] using hB.2.2.1
          · simpa [retsFrom, hstep, hne2] using hB.2.2.2
        · have hC := IH.2.2 r hcur
          refine ⟨?_, ?_, ?_⟩
          · simpa [startsFrom, hstep, hnostart] using hC.1
          · simpa [finishesFrom, hstep] using hC.2.1
          · simpa [retsFrom, hstep, hne2] using hC.2.2

/-- C8: over every executable trace of the modelled GetOrCompute protocol
from the empty cache, the computation for a digest is started at most once —
and exactly once as soon as any call for that digest occurs; it finishes at
most once; every caller's returned result is one of the finished results; and
all callers for the digest return the same result (the single in-flight
computation's value or error is shared, never recomputed). -/
theorem getOrCompute_exactly_once_shared {K V E : Type} [DecidableEq K]
    [DecidableEq V] [DecidableEq E] (t : List (CEvent K V E)) (k : K)
    (h : validFrom ([] : CState K V E) t) :
    startsFrom ([] : CState K V E) t k ≤ 1 ∧
    (hasCall t k → startsFrom ([] : CState K V E) t k = 1) ∧
    (finishesFrom ([] : CState K V E) t k).length ≤ 1 ∧
    (∀ x ∈ retsFrom ([] : CState K V E) t k,
      x ∈ finishesFrom ([] : CState K V E) t k) ∧
    (∀ x ∈ retsFrom ([] : CState K V E) t k,
      ∀ y ∈ retsFrom ([] : CState K V E) t k, x = y) := by
  have hA := (cache_trace_inv k t [] h).1 (by simp [List.lookup])
  exact ⟨hA.1, hA.2.2.2.2, hA.2.1, hA.2.2.1, hA.2.2.2.1⟩

/-- Witness for C8 at a concrete trace: two concurrent callers for digest 5,
one computation, both callers return the shared value. -/
theorem getOrCompute_exactly_once_shared_witness :
    startsFrom ([] : CState Nat Nat String)
      [.call 0 5, .call 1 5, .finish 5 (.ok 42), .ret 0 5 (.ok 42),
       .ret 1 5 (.ok 42)] 5 ≤ 1 ∧
    (finishesFrom ([] : CState Nat Nat String)
      [.call 0 5, .call 1 5, .finish 5 (.ok 42), .ret 0 5 (.ok 42),
       .ret 1 5 (.ok 42)] 5).length ≤ 1 :=
  ⟨(getOrCompute_exactly_once_shared
      [.call 0 5, .call 1 5, .finish 5 (.ok 42), .ret 0 5 (.ok 42),
       .ret 1 5 (.ok 42)] 5 (by rfl)).1,
   (getOrCompute_exactly_once_shared
      [.call 0 5, .call 1 5, .finish 5 (.ok 42), .ret 0 5 (.ok 42),
       .ret 1 5 (.ok 42)] 5 (by rfl)).2.2.1⟩

end Dagql
